import Mathlib

set_option maxHeartbeats 1000000

/- Verification of the PDF chunk-serialization script (chunk.py).

   The script converts a PDF with an external converter, splits the resulting
   document with an external chunker, and then, for each chunk in order,
   builds a record with a zero-based sequential identifier, the chunk text and
   its metadata, writes the record as one JSON line of the output file
   (json.dumps with ensure_ascii=False, followed by a newline), prints one
   progress line per chunk and a final summary line.

   The development embeds the serialization loop faithfully: the JSON encoder
   below mirrors json.dumps with default separators and ensure_ascii=False,
   and a JSON parser is provided to settle the parse/round-trip claims. -/

namespace ChunkScript

/-- Decimal digit character, as produced by Python int rendering. -/
def digitChar (d : Nat) : Char := Char.ofNat (48 + d)

/-- Lowercase hexadecimal digit character, as used by json.dumps \uXXXX escapes. -/
def hexDigitChar (d : Nat) : Char := if d < 10 then Char.ofNat (48 + d) else Char.ofNat (87 + d)

/-- Per-character escaping of json.dumps with ensure_ascii=False: only the
quote, the backslash and control characters below 0x20 are escaped; every
other character, including all non-ASCII characters, is kept literally. -/
def escapeChar (c : Char) : List Char :=
  if c = '"' then ['\\', '"']
  else if c = '\\' then ['\\', '\\']
  else if c = '\x08' then ['\\', 'b']
  else if c = '\x0c' then ['\\', 'f']
  else if c = '\n' then ['\\', 'n']
  else if c = '\r' then ['\\', 'r']
  else if c = '\t' then ['\\', 't']
  else if c.toNat < 32 then ['\\', 'u', '0', '0', hexDigitChar (c.toNat / 16), hexDigitChar (c.toNat % 16)]
  else [c]

/-- JSON string literal encoding (quote, escaped body, quote). -/
def encodeStringData (s : List Char) : List Char :=
  '"' :: ((s.map escapeChar).flatten ++ ['"'])

/-- Decimal rendering of a natural number, most significant digit first. -/
def natDigits (n : Nat) : List Char :=
  if n < 10 then [digitChar n]
  else natDigits (n / 10) ++ [digitChar (n % 10)]
termination_by n
decreasing_by exact Nat.div_lt_self (by omega) (by omega)

/-- The fragment of JSON values the script emits. -/
inductive Json where
  | num (n : Nat)
  | str (s : String)
  | arr (elems : List Json)
  | obj (members : List (String × Json))

mutual

/-- Serialization of a JSON value, mirroring json.dumps with its default
separators (a comma-space between items, a colon-space after keys) and
ensure_ascii=False. -/
def dumpsL : Json → List Char
  | .num n => natDigits n
  | .str s => encodeStringData s.data
  | .arr es => '[' :: (dumpsElems es ++ [']'])
  | .obj ms => '{' :: (dumpsMembers ms ++ ['}'])

/-- Serialization of array elements, comma-space separated. -/
def dumpsElems : List Json → List Char
  | [] => []
  | [e] => dumpsL e
  | e :: e2 :: rest => dumpsL e ++ (',' :: ' ' :: dumpsElems (e2 :: rest))

/-- Serialization of object members, comma-space separated, colon-space after keys. -/
def dumpsMembers : List (String × Json) → List Char
  | [] => []
  | [m] => encodeStringData m.1.data ++ (':' :: ' ' :: dumpsL m.2)
  | m :: m2 :: rest =>
      (encodeStringData m.1.data ++ (':' :: ' ' :: dumpsL m.2)) ++
        (',' :: ' ' :: dumpsMembers (m2 :: rest))

end

/-- json.dumps as a String-valued function. -/
def dumps (j : Json) : String := String.mk (dumpsL j)

/-- Metadata carried by a chunk, as exposed by the external chunker: source
item references (opaque objects of some type α that the script renders with
str), heading context and captions (string lists, per the data model of the
chunker output). -/
structure ChunkMeta (α : Type) where
  doc_items : List α
  headings : List String
  captions : List String

/-- A chunk as produced by the external chunker: a text and its metadata. -/
structure Chunk (α : Type) where
  text : String
  meta : ChunkMeta α

def keyChunkId : String := "chunk_id"

def keyText : String := "text"

def keyMeta : String := "meta"

def keyDocItems : String := "doc_items"

def keyHeadings : String := "headings"

def keyCaptions : String := "captions"

/-- The record the script builds for chunk number i: chunk_id, text, and a
meta object whose doc_items are the str() renderings of the references and
whose headings and captions are taken from the chunk metadata. -/
def chunk_dict {α : Type} (toS : α → String) (i : Nat) (c : Chunk α) : Json :=
  Json.obj
    [(keyChunkId, Json.num i),
     (keyText, Json.str c.text),
     (keyMeta, Json.obj
       [(keyDocItems, Json.arr (c.meta.doc_items.map fun r => Json.str (toS r))),
        (keyHeadings, Json.arr (c.meta.headings.map Json.str)),
        (keyCaptions, Json.arr (c.meta.captions.map Json.str))])]

/-- The records built by the loop `for i, chunk in enumerate(chunks)`. -/
def records {α : Type} (toS : α → String) (chunks : List (Chunk α)) : List Json :=
  chunks.enum.map fun p => chunk_dict toS p.1 p.2

/-- The JSON lines written to the output file, in order. -/
def outputLines {α : Type} (toS : α → String) (chunks : List (Chunk α)) : List String :=
  (records toS chunks).map dumps

/-- The characters written to the output file: each line followed by one newline. -/
def fileData {α : Type} (toS : α → String) (chunks : List (Chunk α)) : List Char :=
  ((outputLines toS chunks).map fun l => l.data ++ ['\n']).flatten

/-- The full content of the output file. -/
def fileContent {α : Type} (toS : α → String) (chunks : List (Chunk α)) : String :=
  String.mk (fileData toS chunks)

/-- The progress line printed for chunk i when the reported character count is n. -/
def progressLineOf (i n : Nat) : String := s!"Saving chunk {i} with {n} characters"

/-- The progress line printed for chunk c at index i (count = len(chunk.text)). -/
def progressLine {α : Type} (i : Nat) (c : Chunk α) : String := progressLineOf i c.text.length

/-- The output path as printed (Path normalizes away the leading ./). -/
def output_path : String := "target/index_chunks.jsonl"

/-- The final summary line. -/
def summaryLine (n : Nat) (p : String) : String := s!"✓ Saved {n} chunks to {p}"

/-- Everything the script prints to the console, in order: one progress line
per chunk, then the summary line. -/
def consoleOutput {α : Type} (chunks : List (Chunk α)) : List String :=
  (chunks.enum.map fun p => progressLine p.1 p.2) ++ [summaryLine chunks.length output_path]

/-- Lookup of a key in an association list of object members. -/
def findKey (ms : List (String × Json)) (k : String) : Option Json :=
  match ms with
  | [] => none
  | m :: rest => if m.1 = k then some m.2 else findKey rest k

/-- Lookup of a key in a JSON object. -/
def getKey (j : Json) (k : String) : Option Json :=
  match j with
  | .obj ms => findKey ms k
  | _ => none

/-- The top-level keys of a JSON object, in order. -/
def topKeys (j : Json) : Option (List String) :=
  match j with
  | .obj ms => some (ms.map fun m => m.1)
  | _ => none

/-- Whether a JSON value is a string. -/
def isStrB (j : Json) : Bool :=
  match j with
  | .str _ => true
  | _ => false

/-- Whether a JSON value is an array all of whose elements are strings. -/
def isStrArr (j : Json) : Bool :=
  match j with
  | .arr es => es.all isStrB
  | _ => false

/-- Whether an optional JSON value is present and a string array. -/
def optIsStrArr (o : Option Json) : Bool :=
  match o with
  | some v => isStrArr v
  | none => false

/-- Whether a record has a meta object whose doc_items, headings and captions
are all present and are arrays of strings. -/
def metaStrLists (r : Json) : Bool :=
  match getKey r keyMeta with
  | some m =>
      optIsStrArr (getKey m keyDocItems) && optIsStrArr (getKey m keyHeadings) &&
        optIsStrArr (getKey m keyCaptions)
  | none => false

/-- The doc_items entry of a record's meta object. -/
def docItemsOf (r : Json) : Option Json :=
  match getKey r keyMeta with
  | some m => getKey m keyDocItems
  | none => none

/-- Modelled from the spec: the document converter and the chunker are opaque
external components (docling) whose code is not part of this repository; any
failure they raise propagates uncaught, so they are modelled as functions
into Except. The script runs conversion, then chunking, then serialization;
a failing stage terminates the run before any later stage produces output. -/
def pipeline {ε δ α : Type} (convert : String → Except ε δ)
    (chunkFn : δ → Except ε (List (Chunk α))) (toS : α → String) (path : String) :
    Except ε (String × List String) :=
  match convert path with
  | .error e => .error e
  | .ok doc =>
    match chunkFn doc with
    | .error e => .error e
    | .ok chunks => .ok (fileContent toS chunks, consoleOutput chunks)

/-- A chunk with its doc_items references rendered to strings; two runs whose
chunkers yield chunks with the same texts and the same rendered metadata are
runs on equal renderChunk images. -/
def renderChunk {α : Type} (toS : α → String) (c : Chunk α) : Chunk String :=
  ⟨c.text, ⟨c.meta.doc_items.map toS, c.meta.headings, c.meta.captions⟩⟩

/-- Split a character list at each newline (the line structure of a file). -/
def splitNL (l : List Char) : List (List Char) :=
  match l with
  | [] => [[]]
  | c :: cs =>
    if c = '\n' then [] :: splitNL cs
    else
      match splitNL cs with
      | [] => [[c]]
      | l1 :: ls => (c :: l1) :: ls

/-- Value of a hexadecimal digit character. -/
def hexVal (c : Char) : Option Nat :=
  if ('0' ≤ c ∧ c ≤ '9') then some (c.toNat - 48)
  else if ('a' ≤ c ∧ c ≤ 'f') then some (c.toNat - 87)
  else if ('A' ≤ c ∧ c ≤ 'F') then some (c.toNat - 55)
  else none

/-- Parse a run of decimal digits, accumulating their value; stops at the
first non-digit. -/
def parseDigits (acc : Nat) : List Char → Nat × List Char
  | [] => (acc, [])
  | c :: cs => if c.isDigit then parseDigits (10 * acc + (c.toNat - 48)) cs else (acc, c :: cs)

/-- Parse the body of a JSON string literal after the opening quote, up to and
including the closing quote; handles the standard escapes and \uXXXX. -/
def pStringBody : List Char → Option (List Char × List Char)
  | [] => none
  | c :: cs =>
    if c = '"' then some ([], cs)
    else if c = '\\' then
      match cs with
      | [] => none
      | e :: cs2 =>
        if e = '"' then Option.map (fun p => ('"' :: p.1, p.2)) (pStringBody cs2)
        else if e = '\\' then Option.map (fun p => ('\\' :: p.1, p.2)) (pStringBody cs2)
        else if e = '/' then Option.map (fun p => ('/' :: p.1, p.2)) (pStringBody cs2)
        else if e = 'b' then Option.map (fun p => ('\x08' :: p.1, p.2)) (pStringBody cs2)
        else if e = 'f' then Option.map (fun p => ('\x0c' :: p.1, p.2)) (pStringBody cs2)
        else if e = 'n' then Option.map (fun p => ('\n' :: p.1, p.2)) (pStringBody cs2)
        else if e = 'r' then Option.map (fun p => ('\r' :: p.1, p.2)) (pStringBody cs2)
        else if e = 't' then Option.map (fun p => ('\t' :: p.1, p.2)) (pStringBody cs2)
        else if e = 'u' then
          match cs2 with
          | h1 :: h2 :: h3 :: h4 :: cs3 =>
            match hexVal h1, hexVal h2, hexVal h3, hexVal h4 with
            | some a, some b, some c2, some d =>
              Option.map (fun p => (Char.ofNat (4096 * a + 256 * b + 16 * c2 + d) :: p.1, p.2))
                (pStringBody cs3)
            | _, _, _, _ => none
          | _ => none
        else none
    else Option.map (fun p => (c :: p.1, p.2)) (pStringBody cs)

mutual

/-- Fueled recursive-descent parser for the JSON fragment in dumps format. -/
def pValue : Nat → List Char → Option (Json × List Char)
  | 0, _ => none
  | _ + 1, [] => none
  | fuel + 1, c :: cs =>
    if c = '"' then Option.map (fun p => (Json.str (String.mk p.1), p.2)) (pStringBody cs)
    else if c = '[' then
      match cs with
      | ']' :: rest => some (Json.arr [], rest)
      | _ => Option.map (fun p => (Json.arr p.1, p.2)) (pElems fuel cs)
    else if c = '{' then
      match cs with
      | '}' :: rest => some (Json.obj [], rest)
      | _ => Option.map (fun p => (Json.obj p.1, p.2)) (pMembers fuel cs)
    else if c.isDigit then
      some (Json.num (parseDigits (c.toNat - 48) cs).1, (parseDigits (c.toNat - 48) cs).2)
    else none

/-- Parse a non-empty comma-space separated element list, up to and including
the closing bracket. -/
def pElems : Nat → List Char → Option (List Json × List Char)
  | 0, _ => none
  | fuel + 1, cs =>
    match pValue fuel cs with
    | none => none
    | some (v, rest) =>
      match rest with
      | ']' :: rest2 => some ([v], rest2)
      | ',' :: ' ' :: rest2 =>
        match pElems fuel rest2 with
        | none => none
        | some (vs, rest3) => some (v :: vs, rest3)
      | _ => none

/-- Parse a non-empty comma-space separated member list, up to and including
the closing brace. -/
def pMembers : Nat → List Char → Option (List (String × Json) × List Char)
  | 0, _ => none
  | fuel + 1, cs =>
    match cs with
    | '"' :: cs1 =>
      match pStringBody cs1 with
      | none => none
      | some (k, rest) =>
        match rest with
        | ':' :: ' ' :: rest2 =>
          match pValue fuel rest2 with
          | none => none
          | some (v, rest3) =>
            match rest3 with
            | '}' :: rest4 => some ([(String.mk k, v)], rest4)
            | ',' :: ' ' :: rest4 =>
              match pMembers fuel rest4 with
              | none => none
              | some (ms, rest5) => some ((String.mk k, v) :: ms, rest5)
            | _ => none
        | _ => none
    | _ => none

end

/-- Parse a complete JSON document (no trailing characters allowed). -/
def parse (s : String) : Option Json :=
  match pValue (s.data.length + 1) s.data with
  | some (j, []) => some j
  | _ => none

mutual

/-- Structural size of a JSON value, used as the parser fuel bound. -/
def sizeJ : Json → Nat
  | .num _ => 1
  | .str _ => 1
  | .arr es => 1 + sizeElems es
  | .obj ms => 1 + sizeMembers ms

/-- Structural size of an element list. -/
def sizeElems : List Json → Nat
  | [] => 0
  | e :: es => 1 + sizeJ e + sizeElems es

/-- Structural size of a member list. -/
def sizeMembers : List (String × Json) → Nat
  | [] => 0
  | m :: ms => 1 + sizeJ m.2 + sizeMembers ms

end

/-- Whether the head of a character list fails to be a decimal digit (used as
the stop condition of number parsing). -/
def headNotDigit (l : List Char) : Bool :=
  match l with
  | [] => true
  | c :: _ => !c.isDigit

/-- The accumulation step of decimal parsing. -/
def digitStep (a : Nat) (c : Char) : Nat := 10 * a + (c.toNat - 48)

/-- The identity rendering for chunks whose references are already strings. -/
def idS (s : String) : String := s

/-- The input path the script passes to the converter. -/
def input_path : String := r"./target/generated-docs/index.pdf"

/-- Concrete sample chunk (used to witness the theorems). -/
def testChunk0 : Chunk String := ⟨r"héllo", ⟨[r"#/texts/0"], [r"Intro"], []⟩⟩

/-- Concrete one-chunk run. -/
def testChunks : List (Chunk String) := [testChunk0]

/-- The same chunk with references of a different opaque type. -/
def testChunkNat : Chunk Nat := ⟨r"héllo", ⟨[7], [r"Intro"], []⟩⟩

/-- The same chunk with its references pre-rendered. -/
def testChunkRendered : Chunk String := ⟨r"héllo", ⟨[r"7"], [r"Intro"], []⟩⟩

/-- A non-ASCII character occurring in the sample chunk text. -/
def accentChar : Char := 'é'

/-- A converter that fails on every path, as when the input PDF is absent. -/
def failConvert (p : String) : Except String Unit := Except.error (r"missing file: " ++ p)

theorem digitChar_props (d : Nat) (h : d < 10) :
    (digitChar d).isDigit = true ∧ digitChar d ≠ '"' ∧ digitChar d ≠ '[' ∧
      digitChar d ≠ '{' ∧ digitChar d ≠ ']' ∧ digitChar d ≠ '}' ∧ digitChar d ≠ '\n' ∧
      (digitChar d).toNat = 48 + d := by
  revert d h
  decide

theorem natDigits_eq (n : Nat) :
    natDigits n = if n < 10 then [digitChar n]
      else natDigits (n / 10) ++ [digitChar (n % 10)] := by
  rw [natDigits]

theorem natDigits_ne_nil (n : Nat) : natDigits n ≠ [] := by
  rw [natDigits_eq]
  split
  · simp
  · simp

theorem natDigits_mem (n : Nat) : ∀ c ∈ natDigits n, ∃ d, d < 10 ∧ c = digitChar d := by
  induction n using Nat.strong_induction_on with
  | _ n ih =>
    rw [natDigits_eq]
    split
    · intro c hc
      simp only [List.mem_singleton] at hc
      exact ⟨n, by omega, hc⟩
    · intro c hc
      rw [List.mem_append] at hc
      rcases hc with h | h
      · exact ih (n / 10) (Nat.div_lt_self (by omega) (by omega)) c h
      · simp only [List.mem_singleton] at h
        exact ⟨n % 10, Nat.mod_lt _ (by omega), h⟩

theorem natDigits_all_digit (n : Nat) : ∀ c ∈ natDigits n, c.isDigit = true := by
  intro c hc
  obtain ⟨d, hd, rfl⟩ := natDigits_mem n c hc
  exact (digitChar_props d hd).1

theorem natDigits_foldl (n : Nat) :
    ∀ acc, (natDigits n).foldl digitStep acc = acc * 10 ^ (natDigits n).length + n := by
  induction n using Nat.strong_induction_on with
  | _ n ih =>
    intro acc
    rw [natDigits_eq]
    split
    · rename_i h
      have hv : (digitChar n).toNat = 48 + n := (digitChar_props n h).2.2.2.2.2.2.2
      simp [digitStep, hv]
      omega
    · rename_i h
      rw [List.foldl_append, List.length_append]
      have ih' := ih (n / 10) (Nat.div_lt_self (by omega) (by omega)) acc
      rw [ih']
      have hv : (digitChar (n % 10)).toNat = 48 + n % 10 :=
        (digitChar_props (n % 10) (Nat.mod_lt _ (by omega))).2.2.2.2.2.2.2
      simp only [List.foldl_cons, List.foldl_nil, List.length_singleton, digitStep, hv]
      have hmod : 10 * (n / 10) + n % 10 = n := Nat.div_add_mod n 10
      have hpow : 10 ^ ((natDigits (n / 10)).length + 1) =
          10 ^ (natDigits (n / 10)).length * 10 := by
        rw [Nat.pow_succ]
      rw [hpow]
      have : 48 + n % 10 - 48 = n % 10 := by omega
      rw [this]
      ring_nf
      omega

theorem parseDigits_append (ds : List Char) (hds : ∀ c ∈ ds, c.isDigit = true) :
    ∀ acc rest, headNotDigit rest = true →
      parseDigits acc (ds ++ rest) = (ds.foldl digitStep acc, rest) := by
  induction ds with
  | nil =>
    intro acc rest hrest
    cases rest with
    | nil => rfl
    | cons c cs =>
      simp only [headNotDigit, Bool.not_eq_true'] at hrest
      simp [parseDigits, hrest]
  | cons d ds ih =>
    intro acc rest hrest
    have hd : d.isDigit = true := hds d (List.mem_cons_self ..)
    simp only [List.cons_append, parseDigits, hd, if_pos, List.foldl_cons]
    exact ih (fun c hc => hds c (List.mem_cons_of_mem _ hc)) _ rest hrest

theorem parseDigits_natDigits (n : Nat) (c : Char) (t rest : List Char)
    (hct : natDigits n = c :: t) (hrest : headNotDigit rest = true) :
    parseDigits (c.toNat - 48) (t ++ rest) = (n, rest) := by
  have halldig : ∀ x ∈ t, x.isDigit = true := by
    intro x hx
    exact natDigits_all_digit n x (by rw [hct]; exact List.mem_cons_of_mem _ hx)
  rw [parseDigits_append t halldig _ rest hrest]
  have hfold := natDigits_foldl n 0
  rw [hct] at hfold
  simp only [List.foldl_cons, digitStep, Nat.mul_zero, Nat.zero_add] at hfold
  rw [hfold]
  simp

theorem hexVal_hexDigitChar (a : Nat) (h : a < 16) : hexVal (hexDigitChar a) = some a := by
  revert a h
  decide

theorem char_ofNat_toNat (c : Char) : Char.ofNat c.toNat = c := Char.ofNat_toNat c

theorem pStringBody_escape (s : List Char) (rest : List Char) :
    pStringBody ((s.map escapeChar).flatten ++ ('"' :: rest)) = some (s, rest) := by
  induction s with
  | nil =>
    rw [List.map_nil, List.flatten_nil, List.nil_append, pStringBody.eq_def]
    simp
  | cons c s ih =>
    simp only [List.map_cons, List.flatten_cons, List.append_assoc]
    by_cases h1 : c = '"'
    · subst h1
      simp only [escapeChar, ite_true, List.cons_append, List.nil_append]
      rw [pStringBody.eq_def]
      simp [ih]
    · by_cases h2 : c = '\\'
      · subst h2
        simp only [escapeChar]
        norm_num
        rw [pStringBody.eq_def]
        simp [ih]
      · by_cases h3 : c = '\x08'
        · subst h3
          simp only [escapeChar]
          norm_num
          rw [pStringBody.eq_def]
          simp [ih]
        · by_cases h4 : c = '\x0c'
          · subst h4
            simp only [escapeChar]
            norm_num
            rw [pStringBody.eq_def]
            simp [ih]
          · by_cases h5 : c = '\n'
            · subst h5
              simp only [escapeChar]
              norm_num
              rw [pStringBody.eq_def]
              simp [ih]
            · by_cases h6 : c = '\r'
              · subst h6
                simp only [escapeChar]
                norm_num
                rw [pStringBody.eq_def]
                simp [ih]
              · by_cases h7 : c = '\t'
                · subst h7
                  simp only [escapeChar]
                  norm_num
                  rw [pStringBody.eq_def]
                  simp [ih]
                · by_cases h8 : c.toNat < 32
                  · have hdiv : c.toNat / 16 < 16 := by omega
                    have hmod : c.toNat % 16 < 16 := Nat.mod_lt _ (by omega)
                    simp only [escapeChar, h1, h2, h3, h4, h5, h6, h7, h8, if_neg, if_pos,
                      ite_false, ite_true, List.cons_append, List.nil_append]
                    rw [pStringBody.eq_def]
                    simp only [hexVal_hexDigitChar _ hdiv, hexVal_hexDigitChar _ hmod]
                    simp [ih, hexVal]
                    have hval : 4096 * 0 + 256 * 0 + 16 * (c.toNat / 16) + c.toNat % 16 =
                        c.toNat := by omega
                    norm_num at hval ⊢
                    rw [hval, char_ofNat_toNat]
                  · simp only [escapeChar, h1, h2, h3, h4, h5, h6, h7, h8, ite_false,
                      List.cons_append, List.nil_append]
                    rw [pStringBody.eq_def]
                    simp [h1, h2, ih]

theorem sizeJ_pos (j : Json) : 1 ≤ sizeJ j := by
  cases j <;> simp [sizeJ]

theorem headNotDigit_cons (c : Char) (l : List Char) :
    headNotDigit (c :: l) = !c.isDigit := rfl

theorem pValue_num (fuel n : Nat) (rest : List Char) (hrest : headNotDigit rest = true) :
    pValue (fuel + 1) (natDigits n ++ rest) = some (Json.num n, rest) := by
  obtain ⟨c, t, hct⟩ : ∃ c t, natDigits n = c :: t := by
    cases h : natDigits n with
    | nil => exact absurd h (natDigits_ne_nil n)
    | cons c t => exact ⟨c, t, rfl⟩
  obtain ⟨d, hd, hc⟩ := natDigits_mem n c (by rw [hct]; exact List.mem_cons_self ..)
  have props := digitChar_props d hd
  subst hc
  have hparse := parseDigits_natDigits n (digitChar d) t rest hct hrest
  rw [hct, List.cons_append, pValue.eq_def]
  simp only [props.2.1, props.2.2.1, props.2.2.2.1, props.1, ite_false, ite_true, if_neg,
    if_pos, hparse]

theorem dumpsL_str (s : String) :
    dumpsL (Json.str s) = '"' :: ((s.data.map escapeChar).flatten ++ ['"']) := by
  simp [dumpsL, encodeStringData]

theorem dumpsL_arr (es : List Json) : dumpsL (Json.arr es) = '[' :: (dumpsElems es ++ [']']) := by
  simp [dumpsL]

theorem dumpsL_obj (ms : List (String × Json)) :
    dumpsL (Json.obj ms) = '{' :: (dumpsMembers ms ++ ['}']) := by
  simp [dumpsL]

theorem dumpsL_num (n : Nat) : dumpsL (Json.num n) = natDigits n := by
  simp [dumpsL]

theorem dumpsElems_singleton (e : Json) : dumpsElems [e] = dumpsL e := by
  simp [dumpsElems]

theorem dumpsElems_cons2 (e e2 : Json) (r : List Json) :
    dumpsElems (e :: e2 :: r) = dumpsL e ++ (',' :: ' ' :: dumpsElems (e2 :: r)) := by
  simp [dumpsElems]

theorem dumpsMembers_singleton (m : String × Json) :
    dumpsMembers [m] = encodeStringData m.1.data ++ (':' :: ' ' :: dumpsL m.2) := by
  simp [dumpsMembers]

theorem dumpsMembers_cons2 (m m2 : String × Json) (r : List (String × Json)) :
    dumpsMembers (m :: m2 :: r) =
      (encodeStringData m.1.data ++ (':' :: ' ' :: dumpsL m.2)) ++
        (',' :: ' ' :: dumpsMembers (m2 :: r)) := by
  simp [dumpsMembers]

theorem dumpsL_head (j : Json) : ∃ c t, dumpsL j = c :: t ∧ c ≠ ']' ∧ c ≠ '}' := by
  cases j with
  | num n =>
    obtain ⟨c, t, hct⟩ : ∃ c t, natDigits n = c :: t := by
      cases h : natDigits n with
      | nil => exact absurd h (natDigits_ne_nil n)
      | cons c t => exact ⟨c, t, rfl⟩
    obtain ⟨d, hd, hc⟩ := natDigits_mem n c (by rw [hct]; exact List.mem_cons_self ..)
    have props := digitChar_props d hd
    exact ⟨c, t, by rw [dumpsL_num, hct], by rw [hc]; exact props.2.2.2.2.1,
      by rw [hc]; exact props.2.2.2.2.2.1⟩
  | str s => exact ⟨'"', _, dumpsL_str s, by decide, by decide⟩
  | arr es => exact ⟨'[', _, dumpsL_arr es, by decide, by decide⟩
  | obj ms => exact ⟨'{', _, dumpsL_obj ms, by decide, by decide⟩

theorem dumpsElems_cons_head (e : Json) (es : List Json) :
    ∃ c t, dumpsElems (e :: es) = c :: t ∧ c ≠ ']' ∧ c ≠ '}' := by
  obtain ⟨c, t, hct, h1, h2⟩ := dumpsL_head e
  cases es with
  | nil => exact ⟨c, t, by rw [dumpsElems_singleton, hct], h1, h2⟩
  | cons e2 r =>
    exact ⟨c, t ++ (',' :: ' ' :: dumpsElems (e2 :: r)),
      by rw [dumpsElems_cons2, hct, List.cons_append], h1, h2⟩

theorem dumpsMembers_cons_head (m : String × Json) (ms : List (String × Json)) :
    ∃ t, dumpsMembers (m :: ms) = '"' :: t := by
  cases ms with
  | nil =>
    exact ⟨_, by rw [dumpsMembers_singleton, encodeStringData, List.cons_append]⟩
  | cons m2 r =>
    exact ⟨_, by rw [dumpsMembers_cons2, encodeStringData, List.cons_append, List.cons_append]⟩

theorem string_mk_data (s : String) : String.mk s.data = s := rfl

theorem roundtrip_all (fuel : Nat) :
    (∀ j rest, sizeJ j < fuel → headNotDigit rest = true →
      pValue fuel (dumpsL j ++ rest) = some (j, rest)) ∧
    (∀ es rest, es ≠ [] → sizeElems es < fuel →
      pElems fuel (dumpsElems es ++ (']' :: rest)) = some (es, rest)) ∧
    (∀ ms rest, ms ≠ [] → sizeMembers ms < fuel →
      pMembers fuel (dumpsMembers ms ++ ('}' :: rest)) = some (ms, rest)) := by
  induction fuel with
  | zero =>
    refine ⟨fun j rest hsize _ => absurd hsize (by omega),
      fun es rest _ hsize => absurd hsize (by omega),
      fun ms rest _ hsize => absurd hsize (by omega)⟩
  | succ fuel ih =>
    obtain ⟨ihV, ihE, ihM⟩ := ih
    refine ⟨?_, ?_, ?_⟩
    · intro j rest hsize hrest
      cases j with
      | num n =>
        rw [dumpsL_num]
        exact pValue_num fuel n rest hrest
      | str s =>
        rw [dumpsL_str, List.cons_append, List.append_assoc, List.singleton_append,
          pValue.eq_def]
        simp only [ite_true, ite_false]
        rw [pStringBody_escape]
        simp [string_mk_data]
      | arr es =>
        cases es with
        | nil =>
          have h0 : dumpsElems ([] : List Json) = [] := by simp [dumpsElems]
          rw [dumpsL_arr, h0, List.nil_append, List.cons_append, List.singleton_append,
            pValue.eq_def]
          simp
        | cons e es2 =>
          obtain ⟨c, t, hct, hc1, hc2⟩ := dumpsElems_cons_head e es2
          have hsz : sizeElems (e :: es2) < fuel := by
            simp only [sizeJ] at hsize
            omega
          have hres := ihE (e :: es2) rest (by simp) hsz
          rw [dumpsL_arr, List.cons_append, List.append_assoc, List.singleton_append,
            pValue.eq_def]
          rw [hct, List.cons_append] at hres ⊢
          simp only [show (('[' : Char) = '"') = False by decide,
            show (('[' : Char) = '[') = True by decide, if_true, if_false, ite_true, ite_false]
          split
          · rename_i heq
            injection heq with heq1 heq2
            exact absurd heq1 hc1
          · simp [hres]
      | obj ms =>
        cases ms with
        | nil =>
          have h0 : dumpsMembers ([] : List (String × Json)) = [] := by simp [dumpsMembers]
          rw [dumpsL_obj, h0, List.nil_append, List.cons_append, List.singleton_append,
            pValue.eq_def]
          simp
        | cons m ms2 =>
          obtain ⟨t, hct⟩ := dumpsMembers_cons_head m ms2
          have hsz : sizeMembers (m :: ms2) < fuel := by
            simp only [sizeJ] at hsize
            omega
          have hres := ihM (m :: ms2) rest (by simp) hsz
          rw [dumpsL_obj, List.cons_append, List.append_assoc, List.singleton_append,
            pValue.eq_def]
          rw [hct, List.cons_append] at hres ⊢
          simp only [show (('{' : Char) = '"') = False by decide,
            show (('{' : Char) = '[') = False by decide,
            show (('{' : Char) = '{') = True by decide, if_true, if_false, ite_true, ite_false]
          split
          · rename_i heq
            injection heq with heq1 heq2
            exact absurd heq1 (by decide)
          · simp [hres]
    · intro es rest hne hsize
      cases es with
      | nil => exact absurd rfl hne
      | cons e es2 =>
        have hsj : sizeJ e < fuel := by
          have h1 := sizeJ_pos e
          simp only [sizeElems] at hsize
          omega
        cases es2 with
        | nil =>
          rw [dumpsElems_singleton, pElems]
          rw [ihV e (']' :: rest) hsj (by rw [headNotDigit_cons]; decide)]
          rfl
        | cons e2 es3 =>
          rw [dumpsElems_cons2, List.append_assoc, List.cons_append, List.cons_append, pElems]
          rw [ihV e (',' :: ' ' :: (dumpsElems (e2 :: es3) ++ ']' :: rest)) hsj
            (by rw [headNotDigit_cons]; decide)]
          have hsz2 : sizeElems (e2 :: es3) < fuel := by
            have h1 := sizeJ_pos e
            simp only [sizeElems] at hsize ⊢
            omega
          simp [ihE (e2 :: es3) rest (by simp) hsz2]
    · intro ms rest hne hsize
      cases ms with
      | nil => exact absurd rfl hne
      | cons m ms2 =>
        obtain ⟨k, v⟩ := m
        have hsv : sizeJ v < fuel := by
          simp only [sizeMembers] at hsize
          omega
        cases ms2 with
        | nil =>
          rw [dumpsMembers_singleton]
          simp only [encodeStringData, List.cons_append, List.append_assoc,
            List.singleton_append, List.nil_append]
          rw [pMembers]
          rw [pStringBody_escape]
          simp [ihV v ('}' :: rest) hsv (by rw [headNotDigit_cons]; decide), string_mk_data]
        | cons m2 ms3 =>
          rw [dumpsMembers_cons2]
          simp only [encodeStringData, List.cons_append, List.append_assoc,
            List.singleton_append, List.nil_append]
          rw [pMembers]
          rw [pStringBody_escape]
          have hsz2 : sizeMembers (m2 :: ms3) < fuel := by
            have h1 := sizeJ_pos v
            simp only [sizeMembers] at hsize ⊢
            omega
          simp [ihV v (',' :: ' ' :: (dumpsMembers (m2 :: ms3) ++ '}' :: rest)) hsv
              (by rw [headNotDigit_cons]; decide),
            ihM (m2 :: ms3) rest (by simp) hsz2, string_mk_data]

theorem size_le_all (n : Nat) :
    (∀ j, sizeJ j ≤ n → sizeJ j ≤ (dumpsL j).length) ∧
    (∀ es, sizeElems es ≤ n → sizeElems es ≤ 1 + (dumpsElems es).length) ∧
    (∀ ms, sizeMembers ms ≤ n → sizeMembers ms ≤ 1 + (dumpsMembers ms).length) := by
  induction n with
  | zero =>
    refine ⟨fun j h => absurd h (by have := sizeJ_pos j; omega), fun es h => ?_, fun ms h => ?_⟩
    · cases es with
      | nil => simp [sizeElems]
      | cons e es2 => exact absurd h (by simp [sizeElems])
    · cases ms with
      | nil => simp [sizeMembers]
      | cons m ms2 => exact absurd h (by simp [sizeMembers])
  | succ n ih =>
    obtain ⟨ihJ, ihE2, ihM2⟩ := ih
    refine ⟨?_, ?_, ?_⟩
    · intro j hj
      cases j with
      | num m =>
        have hne := natDigits_ne_nil m
        have hlen : 1 ≤ (natDigits m).length := by
          cases h : natDigits m with
          | nil => exact absurd h hne
          | cons c t => simp
        simp only [sizeJ, dumpsL_num]
        omega
      | str s =>
        simp [sizeJ, dumpsL_str]
      | arr es =>
        have h1 : sizeElems es ≤ n := by simp only [sizeJ] at hj; omega
        have h2 := ihE2 es h1
        simp only [sizeJ, dumpsL_arr, List.length_cons, List.length_append,
          List.length_singleton]
        omega
      | obj ms =>
        have h1 : sizeMembers ms ≤ n := by simp only [sizeJ] at hj; omega
        have h2 := ihM2 ms h1
        simp only [sizeJ, dumpsL_obj, List.length_cons, List.length_append,
          List.length_singleton]
        omega
    · intro es hes
      cases es with
      | nil => simp [sizeElems]
      | cons e es2 =>
        cases es2 with
        | nil =>
          have h1 : sizeJ e ≤ n := by simp only [sizeElems] at hes; omega
          have h2 := ihJ e h1
          simp only [sizeElems, dumpsElems_singleton]
          omega
        | cons e2 es3 =>
          have h1 : sizeJ e ≤ n := by
            have := sizeJ_pos e2
            simp only [sizeElems] at hes
            omega
          have h2 : sizeElems (e2 :: es3) ≤ n := by
            have := sizeJ_pos e
            simp only [sizeElems] at hes ⊢
            omega
          have h3 := ihJ e h1
          have h4 := ihE2 (e2 :: es3) h2
          simp only [sizeElems, dumpsElems_cons2, List.length_append, List.length_cons] at h4 ⊢
          omega
    · intro ms hms
      cases ms with
      | nil => simp [sizeMembers]
      | cons m ms2 =>
        cases ms2 with
        | nil =>
          have h1 : sizeJ m.2 ≤ n := by simp only [sizeMembers] at hms; omega
          have h2 := ihJ m.2 h1
          simp only [sizeMembers, dumpsMembers_singleton, List.length_append, List.length_cons]
          omega
        | cons m2 ms3 =>
          have h1 : sizeJ m.2 ≤ n := by
            have := sizeJ_pos m2.2
            simp only [sizeMembers] at hms
            omega
          have h2 : sizeMembers (m2 :: ms3) ≤ n := by
            have := sizeJ_pos m.2
            simp only [sizeMembers] at hms ⊢
            omega
          have h3 := ihJ m.2 h1
          have h4 := ihM2 (m2 :: ms3) h2
          simp only [sizeMembers, dumpsMembers_cons2, List.length_append, List.length_cons]
            at h4 ⊢
          omega

theorem parse_dumps (j : Json) : parse (dumps j) = some j := by
  have hsize : sizeJ j ≤ (dumpsL j).length := (size_le_all (sizeJ j)).1 j le_rfl
  have h := (roundtrip_all ((dumpsL j).length + 1)).1 j [] (by omega) rfl
  rw [List.append_nil] at h
  unfold parse
  have hdata : (dumps j).data = dumpsL j := rfl
  rw [hdata, h]

theorem hexDigitChar_props (a : Nat) (h : a < 16) :
    (hexDigitChar a).toNat < 128 ∧ hexDigitChar a ≠ '\n' := by
  revert a h
  decide

theorem escapeChar_no_newline (c : Char) : ∀ x ∈ escapeChar c, x ≠ '\n' := by
  intro x hx
  unfold escapeChar at hx
  by_cases h1 : c = '"'
  · simp [h1] at hx
    rcases hx with h | h <;> subst h <;> decide
  · by_cases h2 : c = '\\'
    · simp [h1, h2] at hx
      subst hx
      decide
    · by_cases h3 : c = '\x08'
      · simp [h1, h2, h3] at hx
        rcases hx with h | h <;> subst h <;> decide
      · by_cases h4 : c = '\x0c'
        · simp [h1, h2, h3, h4] at hx
          rcases hx with h | h <;> subst h <;> decide
        · by_cases h5 : c = '\n'
          · simp [h1, h2, h3, h4, h5] at hx
            rcases hx with h | h <;> subst h <;> decide
          · by_cases h6 : c = '\r'
            · simp [h1, h2, h3, h4, h5, h6] at hx
              rcases hx with h | h <;> subst h <;> decide
            · by_cases h7 : c = '\t'
              · simp [h1, h2, h3, h4, h5, h6, h7] at hx
                rcases hx with h | h <;> subst h <;> decide
              · by_cases h8 : c.toNat < 32
                · rw [if_neg h1, if_neg h2, if_neg h3, if_neg h4, if_neg h5, if_neg h6,
                    if_neg h7, if_pos h8] at hx
                  have hdiv := hexDigitChar_props (c.toNat / 16) (by omega)
                  have hmod := hexDigitChar_props (c.toNat % 16) (Nat.mod_lt _ (by omega))
                  rcases List.mem_cons.mp hx with h | hx
                  · subst h; decide
                  rcases List.mem_cons.mp hx with h | hx
                  · subst h; decide
                  rcases List.mem_cons.mp hx with h | hx
                  · subst h; decide
                  rcases List.mem_cons.mp hx with h | hx
                  · subst h; decide
                  rcases List.mem_cons.mp hx with h | hx
                  · subst h; exact hdiv.2
                  simp only [List.mem_singleton] at hx
                  subst hx
                  exact hmod.2
                · simp [h1, h2, h3, h4, h5, h6, h7, h8] at hx
                  subst hx
                  exact h5

theorem escapeChar_mem_ascii (c : Char) : ∀ x ∈ escapeChar c, x = c ∨ x.toNat < 128 := by
  intro x hx
  unfold escapeChar at hx
  by_cases h1 : c = '"'
  · simp [h1] at hx
    rcases hx with h | h <;> subst h <;> right <;> decide
  · by_cases h2 : c = '\\'
    · simp [h1, h2] at hx
      subst hx
      right
      decide
    · by_cases h3 : c = '\x08'
      · simp [h1, h2, h3] at hx
        rcases hx with h | h <;> subst h <;> right <;> decide
      · by_cases h4 : c = '\x0c'
        · simp [h1, h2, h3, h4] at hx
          rcases hx with h | h <;> subst h <;> right <;> decide
        · by_cases h5 : c = '\n'
          · simp [h1, h2, h3, h4, h5] at hx
            rcases hx with h | h <;> subst h <;> right <;> decide
          · by_cases h6 : c = '\r'
            · simp [h1, h2, h3, h4, h5, h6] at hx
              rcases hx with h | h <;> subst h <;> right <;> decide
            · by_cases h7 : c = '\t'
              · simp [h1, h2, h3, h4, h5, h6, h7] at hx
                rcases hx with h | h <;> subst h <;> right <;> decide
              · by_cases h8 : c.toNat < 32
                · rw [if_neg h1, if_neg h2, if_neg h3, if_neg h4, if_neg h5, if_neg h6,
                    if_neg h7, if_pos h8] at hx
                  have hdiv := hexDigitChar_props (c.toNat / 16) (by omega)
                  have hmod := hexDigitChar_props (c.toNat % 16) (Nat.mod_lt _ (by omega))
                  rcases List.mem_cons.mp hx with h | hx
                  · subst h; right; decide
                  rcases List.mem_cons.mp hx with h | hx
                  · subst h; right; decide
                  rcases List.mem_cons.mp hx with h | hx
                  · subst h; right; decide
                  rcases List.mem_cons.mp hx with h | hx
                  · subst h; right; decide
                  rcases List.mem_cons.mp hx with h | hx
                  · subst h; exact Or.inr hdiv.1
                  simp only [List.mem_singleton] at hx
                  subst hx
                  exact Or.inr hmod.1
                · simp [h1, h2, h3, h4, h5, h6, h7, h8] at hx
                  exact Or.inl hx

theorem escapeChar_nonascii (c : Char) (h : 128 ≤ c.toNat) : escapeChar c = [c] := by
  have h1 : c ≠ '"' := fun he => absurd (he ▸ h) (by decide)
  have h2 : c ≠ '\\' := fun he => absurd (he ▸ h) (by decide)
  have h3 : c ≠ '\x08' := fun he => absurd (he ▸ h) (by decide)
  have h4 : c ≠ '\x0c' := fun he => absurd (he ▸ h) (by decide)
  have h5 : c ≠ '\n' := fun he => absurd (he ▸ h) (by decide)
  have h6 : c ≠ '\r' := fun he => absurd (he ▸ h) (by decide)
  have h7 : c ≠ '\t' := fun he => absurd (he ▸ h) (by decide)
  have h8 : ¬c.toNat < 32 := by omega
  simp [escapeChar, h1, h2, h3, h4, h5, h6, h7, h8]

theorem count_escape_body (s : List Char) (ch : Char) (hch : 128 ≤ ch.toNat) :
    ((s.map escapeChar).flatten).count ch = s.count ch := by
  induction s with
  | nil => simp
  | cons c s ih =>
    simp only [List.map_cons, List.flatten_cons, List.count_append, List.count_cons, ih]
    by_cases hc : c = ch
    · subst hc
      rw [escapeChar_nonascii c hch]
      simp [List.count_cons]
      omega
    · have hzero : (escapeChar c).count ch = 0 := by
        rw [List.count_eq_zero]
        intro hmem
        rcases escapeChar_mem_ascii c ch hmem with h | h
        · exact hc h.symm
        · omega
      rw [hzero]
      simp [hc]

theorem encodeStringData_no_newline (s : List Char) : ∀ x ∈ encodeStringData s, x ≠ '\n' := by
  intro x hx
  unfold encodeStringData at hx
  rcases List.mem_cons.mp hx with h | h
  · subst h; decide
  · rcases List.mem_append.mp h with h | h
    · obtain ⟨l, hl, hxl⟩ := List.mem_flatten.mp h
      obtain ⟨c, _, rfl⟩ := List.mem_map.mp hl
      exact escapeChar_no_newline c x hxl
    · simp only [List.mem_singleton] at h
      subst h
      decide

theorem natDigits_no_newline (n : Nat) : ∀ x ∈ natDigits n, x ≠ '\n' := by
  intro x hx
  obtain ⟨d, hd, rfl⟩ := natDigits_mem n x hx
  exact (digitChar_props d hd).2.2.2.2.2.2.1

theorem no_newline_all (n : Nat) :
    (∀ j, sizeJ j ≤ n → ∀ x ∈ dumpsL j, x ≠ '\n') ∧
    (∀ es, sizeElems es ≤ n → ∀ x ∈ dumpsElems es, x ≠ '\n') ∧
    (∀ ms, sizeMembers ms ≤ n → ∀ x ∈ dumpsMembers ms, x ≠ '\n') := by
  induction n with
  | zero =>
    refine ⟨fun j h => absurd h (by have := sizeJ_pos j; omega), fun es h => ?_, fun ms h => ?_⟩
    · cases es with
      | nil => intro x hx; rw [show dumpsElems [] = [] by simp [dumpsElems]] at hx; cases hx
      | cons e es2 => exact absurd h (by simp [sizeElems])
    · cases ms with
      | nil => intro x hx; rw [show dumpsMembers [] = [] by simp [dumpsMembers]] at hx; cases hx
      | cons m ms2 => exact absurd h (by simp [sizeMembers])
  | succ n ih =>
    obtain ⟨ihJ, ihE2, ihM2⟩ := ih
    refine ⟨?_, ?_, ?_⟩
    · intro j hj x hx
      cases j with
      | num m =>
        rw [dumpsL_num] at hx
        exact natDigits_no_newline m x hx
      | str s =>
        rw [show dumpsL (Json.str s) = encodeStringData s.data by simp [dumpsL]] at hx
        exact encodeStringData_no_newline s.data x hx
      | arr es =>
        have h1 : sizeElems es ≤ n := by simp only [sizeJ] at hj; omega
        rw [dumpsL_arr] at hx
        rcases List.mem_cons.mp hx with h | h
        · subst h; decide
        · rcases List.mem_append.mp h with h | h
          · exact ihE2 es h1 x h
          · simp only [List.mem_singleton] at h; subst h; decide
      | obj ms =>
        have h1 : sizeMembers ms ≤ n := by simp only [sizeJ] at hj; omega
        rw [dumpsL_obj] at hx
        rcases List.mem_cons.mp hx with h | h
        · subst h; decide
        · rcases List.mem_append.mp h with h | h
          · exact ihM2 ms h1 x h
          · simp only [List.mem_singleton] at h; subst h; decide
    · intro es hes x hx
      cases es with
      | nil => rw [show dumpsElems [] = [] by simp [dumpsElems]] at hx; cases hx
      | cons e es2 =>
        cases es2 with
        | nil =>
          rw [dumpsElems_singleton] at hx
          have h1 : sizeJ e ≤ n := by simp only [sizeElems] at hes; omega
          exact ihJ e h1 x hx
        | cons e2 es3 =>
          have h1 : sizeJ e ≤ n := by
            have := sizeJ_pos e2
            simp only [sizeElems] at hes
            omega
          have h2 : sizeElems (e2 :: es3) ≤ n := by
            have := sizeJ_pos e
            simp only [sizeElems] at hes ⊢
            omega
          rw [dumpsElems_cons2] at hx
          rcases List.mem_append.mp hx with h | h
          · exact ihJ e h1 x h
          · rcases List.mem_cons.mp h with h | h
            · subst h; decide
            · rcases List.mem_cons.mp h with h | h
              · subst h; decide
              · exact ihE2 (e2 :: es3) h2 x h
    · intro ms hms x hx
      cases ms with
      | nil => rw [show dumpsMembers [] = [] by simp [dumpsMembers]] at hx; cases hx
      | cons m ms2 =>
        cases ms2 with
        | nil =>
          rw [dumpsMembers_singleton] at hx
          have h1 : sizeJ m.2 ≤ n := by simp only [sizeMembers] at hms; omega
          rcases List.mem_append.mp hx with h | h
          · exact encodeStringData_no_newline m.1.data x h
          · rcases List.mem_cons.mp h with h | h
            · subst h; decide
            · rcases List.mem_cons.mp h with h | h
              · subst h; decide
              · exact ihJ m.2 h1 x h
        | cons m2 ms3 =>
          have h1 : sizeJ m.2 ≤ n := by
            have := sizeJ_pos m2.2
            simp only [sizeMembers] at hms
            omega
          have h2 : sizeMembers (m2 :: ms3) ≤ n := by
            have := sizeJ_pos m.2
            simp only [sizeMembers] at hms ⊢
            omega
          rw [dumpsMembers_cons2] at hx
          rcases List.mem_append.mp hx with h | h
          · rcases List.mem_append.mp h with h | h
            · exact encodeStringData_no_newline m.1.data x h
            · rcases List.mem_cons.mp h with h | h
              · subst h; decide
              · rcases List.mem_cons.mp h with h | h
                · subst h; decide
                · exact ihJ m.2 h1 x h
          · rcases List.mem_cons.mp h with h | h
            · subst h; decide
            · rcases List.mem_cons.mp h with h | h
              · subst h; decide
              · exact ihM2 (m2 :: ms3) h2 x h

theorem dumpsL_no_newline (j : Json) : ∀ x ∈ dumpsL j, x ≠ '\n' :=
  (no_newline_all (sizeJ j)).1 j le_rfl

theorem splitNL_append (l rest : List Char) (h : ∀ x ∈ l, x ≠ '\n') :
    splitNL (l ++ '\n' :: rest) = l :: splitNL rest := by
  induction l with
  | nil =>
    rw [List.nil_append, splitNL]
    simp
  | cons c l ih =>
    have hc : c ≠ '\n' := h c (List.mem_cons_self ..)
    rw [List.cons_append, splitNL, if_neg hc,
      ih (fun x hx => h x (List.mem_cons_of_mem _ hx))]

theorem splitNL_flatten (ls : List (List Char)) (h : ∀ l ∈ ls, ∀ x ∈ l, x ≠ '\n') :
    splitNL ((ls.map fun l => l ++ ['\n']).flatten) = ls ++ [[]] := by
  induction ls with
  | nil => rfl
  | cons l ls ih =>
    rw [List.map_cons, List.flatten_cons, List.append_assoc, List.singleton_append,
      splitNL_append l _ (h l (List.mem_cons_self ..)),
      ih (fun l2 hl2 => h l2 (List.mem_cons_of_mem _ hl2)), List.cons_append]

theorem records_getElem? {α : Type} (toS : α → String) (chunks : List (Chunk α)) (i : Nat) :
    (records toS chunks)[i]? = chunks[i]?.map (chunk_dict toS i) := by
  rw [records, List.getElem?_map, List.getElem?_enum, Option.map_map]
  rfl

theorem records_length {α : Type} (toS : α → String) (chunks : List (Chunk α)) :
    (records toS chunks).length = chunks.length := by
  rw [records, List.length_map, List.enum_length]

theorem outputLines_getElem? {α : Type} (toS : α → String) (chunks : List (Chunk α)) (i : Nat) :
    (outputLines toS chunks)[i]? = chunks[i]?.map fun c => dumps (chunk_dict toS i c) := by
  rw [outputLines, List.getElem?_map, records_getElem?, Option.map_map]
  rfl

theorem outputLines_length {α : Type} (toS : α → String) (chunks : List (Chunk α)) :
    (outputLines toS chunks).length = chunks.length := by
  rw [outputLines, List.length_map, records_length]

theorem consoleOutput_getElem? {α : Type} (chunks : List (Chunk α)) (i : Nat) (c : Chunk α)
    (h : chunks[i]? = some c) :
    (consoleOutput chunks)[i]? = some (progressLineOf i c.text.length) := by
  have hlt : i < chunks.length := (List.getElem?_eq_some.mp h).1
  have hlt2 : i < (chunks.enum.map fun p => progressLine p.1 p.2).length := by
    rw [List.length_map, List.enum_length]
    exact hlt
  rw [consoleOutput, List.getElem?_append_left hlt2, List.getElem?_map, List.getElem?_enum, h]
  rfl

theorem consoleOutput_length {α : Type} (chunks : List (Chunk α)) :
    (consoleOutput chunks).length = chunks.length + 1 := by
  rw [consoleOutput, List.length_append, List.length_map, List.enum_length]
  rfl

theorem consoleOutput_getLast? {α : Type} (chunks : List (Chunk α)) :
    (consoleOutput chunks).getLast? = some (summaryLine chunks.length output_path) := by
  rw [consoleOutput, List.getLast?_concat]

theorem fileData_splitNL {α : Type} (toS : α → String) (chunks : List (Chunk α)) :
    splitNL (fileData toS chunks) = ((outputLines toS chunks).map String.data) ++ [[]] := by
  rw [fileData, show ((outputLines toS chunks).map fun l => l.data ++ ['\n']) =
    (((outputLines toS chunks).map String.data).map fun l => l ++ ['\n']) by
      rw [List.map_map]; rfl]
  apply splitNL_flatten
  intro l hl x hx
  obtain ⟨line, hline, rfl⟩ := List.mem_map.mp hl
  obtain ⟨r, _, rfl⟩ := List.mem_map.mp hline
  exact dumpsL_no_newline r x hx

theorem all_isStrB_map {α : Type} (l : List α) (f : α → String) :
    (l.map fun r => Json.str (f r)).all isStrB = true := by
  induction l with
  | nil => rfl
  | cons a l ih => simp only [List.map_cons, List.all_cons, ih, isStrB, Bool.and_true]

theorem all_isStrB_mapStr (l : List String) : (l.map Json.str).all isStrB = true :=
  all_isStrB_map l fun s => s

theorem getKey_meta {α : Type} (toS : α → String) (i : Nat) (c : Chunk α) :
    getKey (chunk_dict toS i c) keyMeta = some (Json.obj
      [(keyDocItems, Json.arr (c.meta.doc_items.map fun r => Json.str (toS r))),
       (keyHeadings, Json.arr (c.meta.headings.map Json.str)),
       (keyCaptions, Json.arr (c.meta.captions.map Json.str))]) := rfl

theorem getKey_text {α : Type} (toS : α → String) (i : Nat) (c : Chunk α) :
    getKey (chunk_dict toS i c) keyText = some (Json.str c.text) := rfl

theorem getKey_chunk_id {α : Type} (toS : α → String) (i : Nat) (c : Chunk α) :
    getKey (chunk_dict toS i c) keyChunkId = some (Json.num i) := rfl

theorem topKeys_chunk_dict {α : Type} (toS : α → String) (i : Nat) (c : Chunk α) :
    topKeys (chunk_dict toS i c) = some [keyChunkId, keyText, keyMeta] := rfl

theorem metaStrLists_chunk_dict {α : Type} (toS : α → String) (i : Nat) (c : Chunk α) :
    metaStrLists (chunk_dict toS i c) = true := by
  have h : metaStrLists (chunk_dict toS i c) =
      (((c.meta.doc_items.map fun r => Json.str (toS r)).all isStrB &&
        (c.meta.headings.map Json.str).all isStrB) &&
        (c.meta.captions.map Json.str).all isStrB) := rfl
  rw [h, all_isStrB_map, all_isStrB_mapStr, all_isStrB_mapStr]
  rfl

theorem docItemsOf_chunk_dict {α : Type} (toS : α → String) (i : Nat) (c : Chunk α) :
    docItemsOf (chunk_dict toS i c) =
      some (Json.arr (c.meta.doc_items.map fun r => Json.str (toS r))) := rfl

theorem chunk_dict_render {α : Type} (toS : α → String) (i : Nat) (c : Chunk α) :
    chunk_dict toS i c = chunk_dict (fun s => s) i (renderChunk toS c) := by
  rw [chunk_dict, chunk_dict, renderChunk, List.map_map]
  rfl

theorem records_render {α : Type} (toS : α → String) (chunks : List (Chunk α)) :
    records toS chunks = records (fun s => s) (chunks.map (renderChunk toS)) := by
  rw [records, records, List.enum_map, List.map_map]
  exact List.map_congr_left fun p _ => chunk_dict_render toS p.1 p.2

theorem consoleOutput_render {α : Type} (toS : α → String) (chunks : List (Chunk α)) :
    consoleOutput (chunks.map (renderChunk toS)) = consoleOutput chunks := by
  rw [consoleOutput, consoleOutput, List.enum_map, List.map_map, List.length_map]
  rfl

/-- Claim C1: for every finite sequence of chunks, every record built by the
serializer has a meta object whose three fields doc_items, headings and
captions are all emitted as arrays of strings. -/
theorem meta_fields_are_string_lists {α : Type} (toS : α → String)
    (chunks : List (Chunk α)) (r : Json) (hr : r ∈ records toS chunks) :
    metaStrLists r = true := by
  rw [records] at hr
  obtain ⟨p, _, rfl⟩ := List.mem_map.mp hr
  exact metaStrLists_chunk_dict toS p.1 p.2

/-- Witness for C1 on a concrete one-chunk run. -/
theorem meta_fields_are_string_lists_witness :
    metaStrLists (chunk_dict idS 0 testChunk0) = true :=
  meta_fields_are_string_lists idS testChunks (chunk_dict idS 0 testChunk0)
    (by rw [show records idS testChunks = [chunk_dict idS 0 testChunk0] from rfl]
        exact List.mem_singleton.mpr rfl)

/-- Claim C2: the serializer writes exactly one JSON line per chunk: the list
of output lines has the length of the chunk list, and splitting the file
content at newlines yields that many lines plus the trailing empty piece. -/
theorem one_line_per_chunk {α : Type} (toS : α → String) (chunks : List (Chunk α)) :
    (outputLines toS chunks).length = chunks.length ∧
    (splitNL (fileData toS chunks)).length = chunks.length + 1 := by
  refine ⟨outputLines_length toS chunks, ?_⟩
  rw [fileData_splitNL, List.length_append, List.length_map, outputLines_length]
  rfl

/-- Claim C3: the i-th record is the record of the i-th chunk and carries
chunk_id i, so the chunk_id values are 0, 1, ..., n-1 in file order and the
chunker order is preserved. -/
theorem chunk_ids_contiguous {α : Type} (toS : α → String) (chunks : List (Chunk α))
    (i : Nat) (c : Chunk α) (h : chunks[i]? = some c) :
    (records toS chunks)[i]? = some (chunk_dict toS i c) ∧
    getKey (chunk_dict toS i c) keyChunkId = some (Json.num i) := by
  refine ⟨?_, getKey_chunk_id toS i c⟩
  rw [records_getElem?, h]
  rfl

/-- Witness for C3 on a concrete one-chunk run. -/
theorem chunk_ids_contiguous_witness :
    (records idS testChunks)[0]? = some (chunk_dict idS 0 testChunk0) ∧
    getKey (chunk_dict idS 0 testChunk0) keyChunkId = some (Json.num 0) :=
  chunk_ids_contiguous idS testChunks 0 testChunk0 rfl

/-- Claim C4: every output line parses back as a JSON object whose top-level
keys are exactly chunk_id, text and meta, with an integer chunk_id and a
string text. -/
theorem lines_parse_as_records {α : Type} (toS : α → String) (chunks : List (Chunk α))
    (line : String) (h : line ∈ outputLines toS chunks) :
    ∃ r, parse line = some r ∧ topKeys r = some [keyChunkId, keyText, keyMeta] ∧
      (∃ n, getKey r keyChunkId = some (Json.num n)) ∧
      (∃ s, getKey r keyText = some (Json.str s)) := by
  rw [outputLines] at h
  obtain ⟨r0, hr0, rfl⟩ := List.mem_map.mp h
  rw [records] at hr0
  obtain ⟨p, _, rfl⟩ := List.mem_map.mp hr0
  exact ⟨chunk_dict toS p.1 p.2, parse_dumps _, topKeys_chunk_dict toS p.1 p.2,
    ⟨p.1, getKey_chunk_id toS p.1 p.2⟩, ⟨p.2.text, getKey_text toS p.1 p.2⟩⟩

/-- Witness for C4 on a concrete one-chunk run. -/
theorem lines_parse_as_records_witness :
    ∃ r, parse (dumps (chunk_dict idS 0 testChunk0)) = some r ∧
      topKeys r = some [keyChunkId, keyText, keyMeta] ∧
      (∃ n, getKey r keyChunkId = some (Json.num n)) ∧
      (∃ s, getKey r keyText = some (Json.str s)) :=
  lines_parse_as_records idS testChunks (dumps (chunk_dict idS 0 testChunk0))
    (by rw [show outputLines idS testChunks = [dumps (chunk_dict idS 0 testChunk0)] from rfl]
        exact List.mem_singleton.mpr rfl)

/-- Claim C5: the file is the output lines each followed by exactly one
newline (splitting at newlines recovers them; no line contains a newline),
and the encoding keeps every non-ASCII character literally: such characters
are never escaped and their occurrences in an encoded text are exactly their
occurrences in the original text. -/
theorem jsonl_format_and_nonascii {α : Type} (toS : α → String) (chunks : List (Chunk α)) :
    splitNL (fileData toS chunks) = ((outputLines toS chunks).map String.data) ++ [[]] ∧
    (∀ l ∈ outputLines toS chunks, ∀ x ∈ l.data, x ≠ '\n') ∧
    (∀ ch : Char, 128 ≤ ch.toNat → escapeChar ch = [ch]) ∧
    (∀ c ∈ chunks, ∀ ch : Char, 128 ≤ ch.toNat →
      (dumpsL (Json.str c.text)).count ch = c.text.data.count ch) := by
  refine ⟨fileData_splitNL toS chunks, ?_, fun ch h => escapeChar_nonascii ch h, ?_⟩
  · intro l hl x hx
    rw [outputLines] at hl
    obtain ⟨r, _, rfl⟩ := List.mem_map.mp hl
    exact dumpsL_no_newline r x hx
  · intro c _ ch hch
    have hq : (('"' : Char) == ch) = false :=
      beq_eq_false_iff_ne.mpr fun he => absurd (he ▸ hch) (by decide)
    rw [dumpsL_str, List.count_cons, List.count_append, List.count_cons]
    simp [hq, count_escape_body c.text.data ch hch]

/-- Witness for C5: the non-ASCII character of the sample text is preserved
with its exact number of occurrences. -/
theorem jsonl_format_and_nonascii_witness :
    (dumpsL (Json.str testChunk0.text)).count accentChar =
      testChunk0.text.data.count accentChar :=
  (jsonl_format_and_nonascii idS testChunks).2.2.2 testChunk0
    (List.mem_singleton.mpr rfl) accentChar (by decide)

/-- Claim C6: decoding the output line of a chunk succeeds and yields exactly
the record written for it; its text field is a string whose length is the
character count reported in that chunk's progress line. -/
theorem roundtrip_text_length {α : Type} (toS : α → String) (chunks : List (Chunk α))
    (i : Nat) (c : Chunk α) (h : chunks[i]? = some c) :
    ∃ t : String, parse (dumps (chunk_dict toS i c)) = some (chunk_dict toS i c) ∧
      (outputLines toS chunks)[i]? = some (dumps (chunk_dict toS i c)) ∧
      getKey (chunk_dict toS i c) keyText = some (Json.str t) ∧
      (consoleOutput chunks)[i]? = some (progressLineOf i t.length) := by
  refine ⟨c.text, parse_dumps _, ?_, getKey_text toS i c, consoleOutput_getElem? chunks i c h⟩
  rw [outputLines_getElem?, h]
  rfl

/-- Witness for C6 on a concrete one-chunk run. -/
theorem roundtrip_text_length_witness :
    ∃ t : String, parse (dumps (chunk_dict idS 0 testChunk0)) =
        some (chunk_dict idS 0 testChunk0) ∧
      (outputLines idS testChunks)[0]? = some (dumps (chunk_dict idS 0 testChunk0)) ∧
      getKey (chunk_dict idS 0 testChunk0) keyText = some (Json.str t) ∧
      (consoleOutput testChunks)[0]? = some (progressLineOf 0 t.length) :=
  roundtrip_text_length idS testChunks 0 testChunk0 rfl

/-- Claim C7: the console output is exactly one progress line per chunk, each
carrying the chunk index and the character count of its text, followed by one
summary line carrying the total chunk count. -/
theorem console_one_progress_per_chunk {α : Type} (chunks : List (Chunk α)) :
    (consoleOutput chunks).length = chunks.length + 1 ∧
    (∀ i c, chunks[i]? = some c →
      (consoleOutput chunks)[i]? = some (progressLineOf i c.text.length)) ∧
    (consoleOutput chunks).getLast? = some (summaryLine chunks.length output_path) :=
  ⟨consoleOutput_length chunks, fun i c h => consoleOutput_getElem? chunks i c h,
    consoleOutput_getLast? chunks⟩

/-- Witness for C7 on a concrete one-chunk run. -/
theorem console_one_progress_per_chunk_witness :
    (consoleOutput testChunks)[0]? = some (progressLineOf 0 testChunk0.text.length) :=
  (console_one_progress_per_chunk testChunks).2.1 0 testChunk0 rfl

/-- Claim C8: no stage catches exceptions: a failure of the converter or of
the chunker propagates and the run produces no output file content; in
particular an absent input PDF makes the pipeline terminate during
conversion. -/
theorem failures_propagate {ε δ α : Type} (convert : String → Except ε δ)
    (chunkFn : δ → Except ε (List (Chunk α))) (toS : α → String) (path : String) (e : ε)
    (h : convert path = Except.error e ∨
      ∃ doc, convert path = Except.ok doc ∧ chunkFn doc = Except.error e) :
    pipeline convert chunkFn toS path = Except.error e := by
  rcases h with h | ⟨doc, h1, h2⟩
  · rw [pipeline, h]
  · rw [pipeline, h1]
    simp only [h2]

/-- Witness for C8: a converter failing on the script's input path makes the
whole pipeline fail with that error. -/
theorem failures_propagate_witness :
    pipeline failConvert (fun _ => Except.ok ([] : List (Chunk String))) idS input_path =
      Except.error (r"missing file: " ++ input_path) :=
  failures_propagate failConvert (fun _ => Except.ok ([] : List (Chunk String))) idS
    input_path (r"missing file: " ++ input_path) (Or.inl rfl)

/-- Claim C9: the serializer is deterministic: two runs whose chunkers yield
chunks with the same texts and the same rendered metadata write the same
output file content and print the same console output. -/
theorem serializer_deterministic {α β : Type} (toS1 : α → String) (toS2 : β → String)
    (chunks1 : List (Chunk α)) (chunks2 : List (Chunk β))
    (h : chunks1.map (renderChunk toS1) = chunks2.map (renderChunk toS2)) :
    fileContent toS1 chunks1 = fileContent toS2 chunks2 ∧
    consoleOutput chunks1 = consoleOutput chunks2 := by
  have hrec : records toS1 chunks1 = records toS2 chunks2 := by
    rw [records_render toS1 chunks1, records_render toS2 chunks2, h]
  have hcon : consoleOutput chunks1 = consoleOutput chunks2 := by
    rw [← consoleOutput_render toS1 chunks1, ← consoleOutput_render toS2 chunks2, h]
  refine ⟨?_, hcon⟩
  rw [fileContent, fileContent, fileData, fileData, outputLines, outputLines, hrec]

/-- Witness for C9: a run with opaque numeric references and a run with the
pre-rendered string references produce identical output. -/
theorem serializer_deterministic_witness :
    fileContent (fun n => toString n) [testChunkNat] = fileContent idS [testChunkRendered] ∧
    consoleOutput [testChunkNat] = consoleOutput [testChunkRendered] :=
  serializer_deterministic (fun n => toString n) idS [testChunkNat] [testChunkRendered] rfl

/-- Claim C10: whatever the type of the reference objects, the doc_items array
of every record consists of strings only, because each reference is rendered
with str before serialization. -/
theorem doc_items_stringified {α : Type} (toS : α → String) (i : Nat) (c : Chunk α) :
    Option.map isStrArr (docItemsOf (chunk_dict toS i c)) = some true := by
  rw [docItemsOf_chunk_dict]
  rw [show Option.map isStrArr
      (some (Json.arr (c.meta.doc_items.map fun r => Json.str (toS r)))) =
    some ((c.meta.doc_items.map fun r => Json.str (toS r)).all isStrB) from rfl]
  rw [all_isStrB_map]

end ChunkScript
